import Mathlib

/-!
Verification development for the Expo sourcemap-upload pipeline
(scripts/expo-upload-sourcemaps.js).

JavaScript strings are modelled as lists of characters (`Str`).  Node's
posix path functions (`path.parse`, `path.join`, `path.format`,
`path.extname`) are modelled for slash-separated paths as produced by the
walker (`path.join(directory, entryName)` chains): no trailing slashes and
no empty components.  On such paths the model agrees with Node; the few
divergences (trailing slashes, the file name "..") cannot arise in the
pipeline and are noted at the definitions concerned.
-/

/-- JavaScript string, modelled as a list of characters. -/
abbrev Str := List Char

/-- Conversion from a Lean string literal to the model type. -/
def str (s : String) : Str := s.data

/-- Boolean test that `pre` is an initial segment of `s` (JS `startsWith`). -/
def isHeadOf : Str → Str → Bool
  | [], _ => true
  | _ :: _, [] => false
  | a :: as, b :: bs => decide (a = b) && isHeadOf as bs

/-- Boolean test that `suf` is a final segment of `s` (JS `String.endsWith`). -/
def strEndsWith (s suf : Str) : Bool := isHeadOf suf.reverse s.reverse

/-- Boolean substring test (JS `String.includes`). -/
def strIncludes : Str → Str → Bool
  | [], sub => sub.isEmpty
  | a :: rest, sub => isHeadOf sub (a :: rest) || strIncludes rest sub

/-- Split a list at the last occurrence of `c`: returns `some (before, after)`
with `l = before ++ c :: after` and `c` not occurring in `after`, or `none`
when `c` does not occur. -/
def splitLast (c : Char) (l : Str) : Option (Str × Str) :=
  match (l.reverse).dropWhile (fun x => decide (x ≠ c)) with
  | [] => none
  | _ :: preRev => some (preRev.reverse, ((l.reverse).takeWhile (fun x => decide (x ≠ c))).reverse)

theorem isHeadOf_eq_true_iff (pre s : Str) : isHeadOf pre s = true ↔ pre <+: s := by
  induction pre generalizing s with
  | nil => simp [isHeadOf]
  | cons a as ih =>
    cases s with
    | nil => simp [isHeadOf]
    | cons b bs =>
      simp only [isHeadOf, Bool.and_eq_true, decide_eq_true_eq, ih]
      constructor
      · rintro ⟨rfl, t, ht⟩; exact ⟨t, by simp [ht]⟩
      · rintro ⟨t, ht⟩
        simp only [List.cons_append] at ht
        obtain ⟨rfl, h2⟩ := List.cons.inj ht
        exact ⟨rfl, t, h2⟩

theorem takeWhile_append_cons {p : Char → Bool} (xs : Str) (y : Char) (ys : Str)
    (hxs : ∀ x ∈ xs, p x = true) (hy : p y = false) :
    (xs ++ y :: ys).takeWhile p = xs := by
  induction xs with
  | nil => simp [List.takeWhile, hy]
  | cons a as ih =>
    have ha : p a = true := hxs a (by simp)
    simp only [List.cons_append, List.takeWhile, ha, List.cons.injEq, true_and]
    exact ih (fun x hx => hxs x (by simp [hx]))

theorem dropWhile_append_cons {p : Char → Bool} (xs : Str) (y : Char) (ys : Str)
    (hxs : ∀ x ∈ xs, p x = true) (hy : p y = false) :
    (xs ++ y :: ys).dropWhile p = y :: ys := by
  induction xs with
  | nil => simp [List.dropWhile, hy]
  | cons a as ih =>
    have ha : p a = true := hxs a (by simp)
    simp only [List.cons_append, List.dropWhile, ha]
    exact ih (fun x hx => hxs x (by simp [hx]))

theorem splitLast_of_last_occurrence (c : Char) (a b : Str) (hb : c ∉ b) :
    splitLast c (a ++ c :: b) = some (a, b) := by
  unfold splitLast
  have hrev : (a ++ c :: b).reverse = b.reverse ++ c :: a.reverse := by
    simp
  have hall : ∀ x ∈ b.reverse, (fun x => decide (x ≠ c)) x = true := by
    intro x hx
    simp only [decide_eq_true_eq]
    intro h; exact hb (h ▸ (List.mem_reverse.mp hx))
  have hc : (fun x => decide (x ≠ c)) c = false := by simp
  rw [hrev, dropWhile_append_cons _ _ _ hall hc, takeWhile_append_cons _ _ _ hall hc]
  simp

theorem splitLast_eq_none_of_not_mem (c : Char) (l : Str) (h : c ∉ l) :
    splitLast c l = none := by
  unfold splitLast
  have hall : ∀ x ∈ l.reverse, (fun x => decide (x ≠ c)) x = true := by
    intro x hx
    simp only [decide_eq_true_eq]
    intro he; exact h (he ▸ (List.mem_reverse.mp hx))
  rw [List.dropWhile_eq_nil_iff.mpr hall]

theorem dropWhile_head_false {p : Char → Bool} :
    ∀ (l : Str) (x : Char) (rest : Str), l.dropWhile p = x :: rest → p x = false := by
  intro l
  induction l with
  | nil => intro x rest h; exact absurd h (by simp)
  | cons a as ih =>
    intro x rest h
    by_cases ha : p a = true
    · exact ih x rest (by simpa [List.dropWhile, ha] using h)
    · have ha2 : p a = false := by revert ha; cases p a <;> simp
      simp only [List.dropWhile, ha2] at h
      obtain ⟨rfl, _⟩ := List.cons.inj h
      exact ha2

theorem mem_takeWhile_pred {p : Char → Bool} :
    ∀ (l : Str) (x : Char), x ∈ l.takeWhile p → p x = true := by
  intro l
  induction l with
  | nil => intro x h; exact absurd h (by simp)
  | cons a as ih =>
    intro x h
    by_cases ha : p a = true
    · simp only [List.takeWhile, ha, List.mem_cons] at h
      rcases h with rfl | h
      · exact ha
      · exact ih x h
    · have ha2 : p a = false := by revert ha; cases p a <;> simp
      simp [List.takeWhile, ha2] at h

theorem splitLast_eq_some (c : Char) (l a b : Str) (h : splitLast c l = some (a, b)) :
    l = a ++ c :: b ∧ c ∉ b := by
  unfold splitLast at h
  rcases hd : (l.reverse).dropWhile (fun x => decide (x ≠ c)) with _ | ⟨x, preRev⟩
  · rw [hd] at h; exact absurd h (by simp)
  · rw [hd] at h
    have hx : (fun x => decide (x ≠ c)) x = false := dropWhile_head_false _ x preRev hd
    have hxc : x = c := by simpa using hx
    subst hxc
    have hsplit : l.reverse = (l.reverse).takeWhile (fun y => decide (y ≠ x)) ++ x :: preRev := by
      conv_lhs => rw [← List.takeWhile_append_dropWhile (p := fun y => decide (y ≠ x)) (l := l.reverse)]
      rw [hd]
    have hinj := Option.some.inj h
    have ha : preRev.reverse = a := congrArg Prod.fst hinj
    have hbe : ((l.reverse).takeWhile (fun y => decide (y ≠ x))).reverse = b := congrArg Prod.snd hinj
    have hl : l = preRev.reverse ++ x :: ((l.reverse).takeWhile (fun y => decide (y ≠ x))).reverse := by
      conv_lhs => rw [← List.reverse_reverse l, hsplit]
      simp
    constructor
    · rw [← ha, ← hbe]; exact hl
    · intro hc
      rw [← hbe] at hc
      have : x ∈ (l.reverse).takeWhile (fun y => decide (y ≠ x)) := List.mem_reverse.mp hc
      have := mem_takeWhile_pred _ x this
      simp at this

theorem splitLast_eq_none_iff (c : Char) (l : Str) : splitLast c l = none ↔ c ∉ l := by
  constructor
  · intro h hc
    unfold splitLast at h
    rcases hd : (l.reverse).dropWhile (fun x => decide (x ≠ c)) with _ | ⟨x, preRev⟩
    · have hsplit : l.reverse = (l.reverse).takeWhile (fun x => decide (x ≠ c)) := by
        conv_lhs => rw [← List.takeWhile_append_dropWhile (p := fun x => decide (x ≠ c)) (l := l.reverse)]
        rw [hd]; simp
      have hmem : c ∈ (l.reverse).takeWhile (fun x => decide (x ≠ c)) := by
        rw [← hsplit]; exact List.mem_reverse.mpr hc
      have := mem_takeWhile_pred _ c hmem
      simp at this
    · rw [hd] at h; exact absurd h (by simp)
  · exact splitLast_eq_none_of_not_mem c l

theorem splitLast_append (c : Char) (l m : Str) (hm : c ∉ m) :
    splitLast c (l ++ m) = (splitLast c l).map (fun x => (x.1, x.2 ++ m)) := by
  rcases hs : splitLast c l with _ | ⟨a, b⟩
  · have hl : c ∉ l := (splitLast_eq_none_iff c l).mp hs
    have : c ∉ l ++ m := by
      intro h; rcases List.mem_append.mp h with h | h
      · exact hl h
      · exact hm h
    rw [splitLast_eq_none_of_not_mem c _ this]; rfl
  · obtain ⟨rfl, hb⟩ := splitLast_eq_some c l a b hs
    have hbm : c ∉ b ++ m := by
      intro h; rcases List.mem_append.mp h with h | h
      · exact hb h
      · exact hm h
    rw [List.append_assoc, List.cons_append]
    rw [splitLast_of_last_occurrence c a (b ++ m) hbm]
    rfl

/-- Directory and base name of a path, split at the last slash, following
Node's posix `path.parse` fields `dir`/`base` for normalized paths:
`dirBase "dist/a/x.js" = ("dist/a", "x.js")`, `dirBase "/x.js" = ("/", "x.js")`,
`dirBase "x.js" = ("", "x.js")`. -/
def dirBase (p : Str) : Str × Str :=
  match splitLast '/' p with
  | none => ([], p)
  | some (d, b) => (if d = [] then ['/'] else d, b)

/-- Name and extension of a base name, following Node's `path.parse` fields
`name`/`ext`: the extension starts at the last dot unless that dot is the
first character (so `extSplit ".map" = (".map", "")`, a dotfile with no
extension, matching Node). -/
def extSplit (b : Str) : Str × Str :=
  match splitLast '.' b with
  | none => (b, [])
  | some (n, e) => if n = [] then (b, []) else (n, '.' :: e)

/-- Node's posix `path.join` restricted to two already-normalized segments,
as used by the script (`path.join(dir, name)`); also the value of
`path.format` on a parse result, which for a nonempty `dir` is
`dir + "/" + base` (just `base` when `dir` is empty, `"/" + base` at the
root). -/
def joinPath (d : Str) (b : Str) : Str :=
  if d = [] then b else if d = ['/'] then '/' :: b else d ++ '/' :: b

/-- Result of Node's `path.parse` (the fields the script uses). -/
structure PathParts where
  dir : Str
  base : Str
  name : Str
  ext : Str
deriving DecidableEq

/-- Model of Node's posix `path.parse` for normalized paths without a
trailing slash (the only paths the pipeline produces). -/
def parsePath (p : Str) : PathParts :=
  let db := dirBase p
  let ne := extSplit db.2
  ⟨db.1, db.2, ne.1, ne.2⟩

/-- Model of Node's `path.extname`, used by `copyFilesToTmpDirectory`. -/
def extname (p : Str) : Str := (extSplit (dirBase p).2).2

/-- Base name of a path (the walker classifies `item.name`, which for a file
path is its final component). -/
def basename (p : Str) : Str := (dirBase p).2

/-- Source `groupAssets` line 84: the group key of an asset path is the path
with the `.map` extension stripped (`path.join(dir, name)`) for sourcemaps,
and `path.format(parsedPath)` (the path itself) otherwise. -/
def groupKey (p : Str) : Str :=
  let pp := parsePath p
  if pp.ext = str ".map" then joinPath pp.dir pp.name else joinPath pp.dir pp.base

theorem join_dirBase (p : Str) (h : isHeadOf (str "//") p = false) :
    joinPath (dirBase p).1 (dirBase p).2 = p := by
  unfold dirBase
  rcases hs : splitLast '/' p with _ | ⟨d, b⟩
  · simp [joinPath]
  · obtain ⟨rfl, _⟩ := splitLast_eq_some '/' p d b hs
    by_cases hd : d = []
    · subst hd
      simp [joinPath]
    · simp only [hd, if_false]
      by_cases hd2 : d = ['/']
    
      · subst hd2
        exact absurd h (by simp [str, isHeadOf])
      · simp [joinPath, hd, hd2]

theorem extSplit_append_eq (b : Str) : (extSplit b).1 ++ (extSplit b).2 = b := by
  unfold extSplit
  rcases hs : splitLast '.' b with _ | ⟨n, e⟩
  · simp
  · obtain ⟨rfl, _⟩ := splitLast_eq_some '.' b n e hs
    by_cases hn : n = []
    · subst hn; simp
    · simp [hn]

theorem dirBase_append (l m : Str) (hm : '/' ∉ m) :
    dirBase (l ++ m) = ((dirBase l).1, (dirBase l).2 ++ m) := by
  unfold dirBase
  rw [splitLast_append '/' l m hm]
  rcases hs : splitLast '/' l with _ | ⟨d, b⟩
  · rfl
  · rfl

theorem extSplit_map_suffix (b : Str) (hb : b ≠ []) :
    extSplit (b ++ str ".map") = (b, str ".map") := by
  have hmap : str ".map" = '.' :: str "map" := rfl
  have hdot : '.' ∉ str "map" := by decide
  unfold extSplit
  rw [hmap, splitLast_of_last_occurrence '.' b (str "map") hdot]
  simp [hb]

theorem basename_ne_nil (p : Str) (hp : p ≠ []) (hl : p.getLast? ≠ some '/') :
    (dirBase p).2 ≠ [] := by
  unfold dirBase
  rcases hs : splitLast '/' p with _ | ⟨d, b⟩
  · simpa using hp
  · obtain ⟨hpe, _⟩ := splitLast_eq_some '/' p d b hs
    simp only
    intro hb
    subst hb
    apply hl
    rw [hpe]
    have : d ++ '/' :: ([] : Str) = d ++ ['/'] := rfl
    rw [this, List.getLast?_concat]

theorem joinPath_append (d x y : Str) : joinPath d (x ++ y) = joinPath d x ++ y := by
  unfold joinPath
  by_cases h1 : d = []
  · simp [h1]
  · by_cases h2 : d = ['/']
    · simp [h1, h2]
    · simp [h1, h2]

theorem groupKey_of_map_ext (p : Str) (h : (parsePath p).ext = str ".map") :
    groupKey p = joinPath (parsePath p).dir (parsePath p).name := by
  unfold groupKey
  simp [h]

theorem groupKey_of_not_map_ext (p : Str) (hp : isHeadOf (str "//") p = false)
    (h : (parsePath p).ext ≠ str ".map") : groupKey p = p := by
  unfold groupKey
  simp only [h, if_false]
  have : (parsePath p).dir = (dirBase p).1 ∧ (parsePath p).base = (dirBase p).2 := ⟨rfl, rfl⟩
  rw [this.1, this.2]
  exact join_dirBase p hp

theorem map_eq_groupKey_append (p : Str) (hp : isHeadOf (str "//") p = false)
    (h : (parsePath p).ext = str ".map") : p = groupKey p ++ str ".map" := by
  rw [groupKey_of_map_ext p h]
  have hb : (parsePath p).name ++ (parsePath p).ext = (dirBase p).2 := extSplit_append_eq (dirBase p).2
  rw [← joinPath_append, ← h, hb]
  exact (join_dirBase p hp).symm

theorem groupKey_map_inj (p q : Str)
    (hp : isHeadOf (str "//") p = false) (hq : isHeadOf (str "//") q = false)
    (hpe : (parsePath p).ext = str ".map") (hqe : (parsePath q).ext = str ".map")
    (h : groupKey p = groupKey q) : p = q := by
  rw [map_eq_groupKey_append p hp hpe, map_eq_groupKey_append q hq hqe, h]

theorem groupKey_counterpart (b : Str) (hb : b ≠ []) (hl : b.getLast? ≠ some '/')
    (he : (parsePath b).ext ≠ str ".map") :
    groupKey (b ++ str ".map") = groupKey b := by
  have hslash : '/' ∉ str ".map" := by decide
  have hdb : dirBase (b ++ str ".map") = ((dirBase b).1, (dirBase b).2 ++ str ".map") :=
    dirBase_append b (str ".map") hslash
  have hbb : (dirBase b).2 ≠ [] := basename_ne_nil b hb hl
  have hes : extSplit ((dirBase b).2 ++ str ".map") = ((dirBase b).2, str ".map") :=
    extSplit_map_suffix (dirBase b).2 hbb
  have hleft : groupKey (b ++ str ".map") = joinPath (dirBase b).1 (dirBase b).2 := by
    simp only [groupKey, parsePath, hdb, hes]
    simp
  have hright : groupKey b = joinPath (dirBase b).1 (dirBase b).2 := by
    simp only [groupKey, parsePath]
    rw [if_neg]
    exact he
  rw [hleft, hright]

/-- First-match lookup in an association list, modelling JS object property
read (`groups[key]`, `runtimesByAssetGroup[name]`: `none` models
`undefined`). -/
def alookup {α : Type} (gs : List (Str × α)) (k : Str) : Option α :=
  match gs with
  | [] => none
  | (k2, v) :: rest => if k2 = k then some v else alookup rest k

/-- Key update in an association list, modelling JS object property write
(`obj[k] = v`): overwrites the first entry with key `k` in place, appends a
new entry otherwise (JS objects keep insertion order of keys). -/
def aset {α : Type} (gs : List (Str × α)) (k : Str) (v : α) : List (Str × α) :=
  match gs with
  | [] => [(k, v)]
  | (k2, v2) :: rest =>
      if k2 = k then (k2, v) :: rest else (k2, v2) :: aset rest k v

/-- Key list of an association list, modelling `Object.keys` (insertion
order). -/
def akeys {α : Type} (gs : List (Str × α)) : List Str := gs.map Prod.fst

/-- One step of source `groupAssets` lines 85-89: push `p` onto the group
named `k`, creating the group at the end when absent. -/
def addToGroups (gs : List (Str × List Str)) (k : Str) (p : Str) : List (Str × List Str) :=
  match gs with
  | [] => [(k, [p])]
  | (k2, ps) :: rest =>
      if k2 = k then (k2, ps ++ [p]) :: rest else (k2, ps) :: addToGroups rest k p

/-- Source `groupAssets` lines 79-92: partition asset paths into groups keyed
by `groupKey`, in input encounter order. -/
def groupAssets (assetPaths : List Str) : List (Str × List Str) :=
  assetPaths.foldl (fun gs p => addToGroups gs (groupKey p) p) []

/-- Paths of `l` whose group key is `k` (proof-side helper). -/
def keyFilter (l : List Str) (k : Str) : List Str :=
  l.filter (fun p => decide (groupKey p = k))


theorem alookup_addToGroups (gs : List (Str × List Str)) (k p k2 : Str) :
    alookup (addToGroups gs k p) k2 =
      if k2 = k then some ((alookup gs k).getD [] ++ [p]) else alookup gs k2 := by
  induction gs with
  | nil =>
    by_cases h : k2 = k
    · subst h; simp [addToGroups, alookup]
    · simp [addToGroups, alookup, h, Ne.symm h]
  | cons hd rest ih =>
    obtain ⟨k3, v3⟩ := hd
    by_cases h3 : k3 = k
    · subst h3
      by_cases h : k3 = k2
      · subst h; simp [addToGroups, alookup]
      · simp [addToGroups, alookup, h, Ne.symm h]
    · by_cases h : k3 = k2
      · subst h
        simp [addToGroups, alookup, h3]
      · by_cases h2 : k2 = k
        · subst h2
          simp [addToGroups, alookup, h3, h, ih]
        · simp [addToGroups, alookup, h3, h, h2, ih]

theorem akeys_addToGroups (gs : List (Str × List Str)) (k p : Str) :
    akeys (addToGroups gs k p) = if k ∈ akeys gs then akeys gs else akeys gs ++ [k] := by
  induction gs with
  | nil => simp [addToGroups, akeys]
  | cons hd rest ih =>
    obtain ⟨k3, v3⟩ := hd
    by_cases h3 : k3 = k
    · subst h3; simp [addToGroups, akeys]
    · simp only [addToGroups, if_neg h3, akeys, List.map_cons] at *
      rw [ih]
      by_cases hm : k ∈ List.map Prod.fst rest
      · rw [if_pos hm, if_pos (List.mem_cons_of_mem _ hm)]
      · have hnotc : k ∉ k3 :: List.map Prod.fst rest := by
          simp only [List.mem_cons]
          rintro (he | hmem)
          · exact h3 he.symm
          · exact hm hmem
        rw [if_neg hm, if_neg hnotc]
        rfl

theorem nodup_akeys_foldl (l : List Str) :
    ∀ gs : List (Str × List Str), (akeys gs).Nodup →
      (akeys (l.foldl (fun gs p => addToGroups gs (groupKey p) p) gs)).Nodup := by
  induction l with
  | nil => intro gs h; simpa using h
  | cons p rest ih =>
    intro gs h
    simp only [List.foldl_cons]
    apply ih
    rw [akeys_addToGroups]
    by_cases hm : groupKey p ∈ akeys gs
    · simpa [hm] using h
    · simp only [hm, if_false]
      rw [List.nodup_append]
      exact ⟨h, List.nodup_singleton _, by simpa using hm⟩

theorem nodup_akeys_groupAssets (l : List Str) : (akeys (groupAssets l)).Nodup :=
  nodup_akeys_foldl l [] (by simp [akeys])

theorem alookup_foldl_groups (l : List Str) :
    ∀ (gs : List (Str × List Str)) (k : Str),
      alookup (l.foldl (fun gs p => addToGroups gs (groupKey p) p) gs) k =
        match alookup gs k with
        | some ps => some (ps ++ keyFilter l k)
        | none => if keyFilter l k = [] then none else some (keyFilter l k) := by
  induction l with
  | nil =>
    intro gs k
    simp only [List.foldl_nil, keyFilter, List.filter_nil]
    rcases h : alookup gs k with _ | ps
    · simp
    · simp
  | cons p rest ih =>
    intro gs k
    simp only [List.foldl_cons]
    rw [ih]
    by_cases hk : k = groupKey p
    · subst hk
      have hf : keyFilter (p :: rest) (groupKey p) = p :: keyFilter rest (groupKey p) := by
        simp [keyFilter, List.filter]
      rw [alookup_addToGroups, if_pos rfl, hf]
      rcases hg : alookup gs (groupKey p) with _ | ps
      · simp [hg]
      · simp [hg]
    · have hf : keyFilter (p :: rest) k = keyFilter rest k := by
        simp only [keyFilter, List.filter]
        rw [decide_eq_false (fun he => hk he.symm)]
      rw [alookup_addToGroups, if_neg hk, hf]

theorem alookup_groupAssets (l : List Str) (k : Str) :
    alookup (groupAssets l) k =
      if keyFilter l k = [] then none else some (keyFilter l k) := by
  unfold groupAssets
  rw [alookup_foldl_groups l [] k]
  rfl

theorem alookup_of_mem_nodup {α : Type} (gs : List (Str × α)) (k : Str) (v : α)
    (hnd : (akeys gs).Nodup) (hm : (k, v) ∈ gs) : alookup gs k = some v := by
  induction gs with
  | nil => exact absurd hm (by simp)
  | cons hd rest ih =>
    obtain ⟨k2, v2⟩ := hd
    simp only [akeys, List.map_cons, List.nodup_cons] at hnd
    rcases List.mem_cons.mp hm with he | hm2
    · have h1 : k2 = k := (congrArg Prod.fst he).symm
      have h2 : v2 = v := (congrArg Prod.snd he).symm
      simp only [alookup, if_pos h1, h2]
    · have hk2 : ¬ k2 = k := by
        intro he2
        apply hnd.1
        have hmem : (k, v).1 ∈ List.map Prod.fst rest := List.mem_map_of_mem Prod.fst hm2
        rw [he2]
        exact hmem
      simp only [alookup, if_neg hk2]
      exact ih hnd.2 hm2

theorem groupAssets_mem_characterization (l : List Str) (k : Str) (ps : List Str)
    (hm : (k, ps) ∈ groupAssets l) : ps = keyFilter l k ∧ ps ≠ [] := by
  have hlk : alookup (groupAssets l) k = some ps :=
    alookup_of_mem_nodup _ k ps (nodup_akeys_groupAssets l) hm
  rw [alookup_groupAssets] at hlk
  by_cases hf : keyFilter l k = []
  · rw [if_pos hf] at hlk; exact absurd hlk (by simp)
  · rw [if_neg hf] at hlk
    have heq := Option.some.inj hlk
    exact ⟨heq.symm, by rw [← heq]; exact hf⟩

theorem groupAssets_mem_input (l : List Str) (p : Str) (hp : p ∈ l) :
    alookup (groupAssets l) (groupKey p) = some (keyFilter l (groupKey p)) ∧
      p ∈ keyFilter l (groupKey p) := by
  have hmem : p ∈ keyFilter l (groupKey p) := by
    simp [keyFilter, List.mem_filter, hp]
  have hne : keyFilter l (groupKey p) ≠ [] := by
    intro h; rw [h] at hmem; exact absurd hmem (by simp)
  rw [alookup_groupAssets, if_neg hne]
  exact ⟨rfl, hmem⟩

/-- Source `isAsset` lines 59-61: a file name is an asset iff it ends in
`.map`, `.js` or `.hbc`. -/
def isAsset (filename : Str) : Bool :=
  strEndsWith filename (str ".map") || strEndsWith filename (str ".js") ||
    strEndsWith filename (str ".hbc")

/-- Scratch directory `<root>/.tmp` (source line 11 `TMP_DIR` and
`path.join(parentFilePathForTmpDir, TMP_DIR)`). -/
def tmpDirOf (root : Str) : Str := joinPath root (str ".tmp")

/-- Test that path `p` lies strictly below directory `dir` (its full path
starts with `dir` followed by a slash). -/
def isUnderDir (dir p : Str) : Bool := isHeadOf (joinPath dir []) p

/-- Source `getAssetPathsSync` lines 63-77, over a filesystem modelled as the
list of existing file paths: the walker returns every file below `directory`
whose name `isAsset` accepts.  The recursive directory traversal is modelled
by the path-under-directory test; traversal order is the order of `fs`. -/
def getAssetPaths (directory : Str) (fs : List Str) : List Str :=
  fs.filter (fun p => isUnderDir directory p && isAsset (basename p))

/-- Source `deleteTmpDirectory` lines 115-122 as called on line 150: removes
`<root>/.tmp` and everything below it from the filesystem (the `rmSync`
succeeds; a failed best-effort deletion is an environmental error outside
this model). -/
def deleteTmpDirectory (root : Str) (fs : List Str) : List Str :=
  fs.filter (fun p => !(decide (p = tmpDirOf root) || isUnderDir (tmpDirOf root) p))

/-- First-pass asset listing: source line 150-151, `deleteTmpDirectory`
followed by `getAssetPathsSync(outputDir)`. -/
def firstPassFiles (root : Str) (fs : List Str) : List Str :=
  getAssetPaths root (deleteTmpDirectory root fs)

/-- First-pass grouping: source line 152. -/
def firstPassGroups (root : Str) (fs : List Str) : List (Str × List Str) :=
  groupAssets (firstPassFiles root fs)

/-- One update record of `eas-update-metadata.json` (source lines 154-160,
166, 169: the fields `id`, `platform`, `runtimeVersion` are read). -/
structure UpdateRecord where
  id : Str
  platform : Str
  runtimeVersion : Str
deriving DecidableEq

/-- Source line 161: `Object.keys(groupedAssets).find(key =>
key.includes(platform))`. -/
def findAssetGroupName (groups : List (Str × List Str)) (platform : Str) : Option Str :=
  (akeys groups).find? (fun k => strIncludes k platform)

/-- Source line 168: the new group name
`platform-update-id-updateId` followed by the matched key's extension. -/
def newAssetGroupName (platform id ext : Str) : Str :=
  platform ++ str "-update-id-" ++ id ++ ext

/-- State built by the correlation loop (source lines 158-171):
`runtimesByAssetGroup`, the warnings printed by `console.error` (recorded as
the platform each one names), and one staged entry per matched record (the
new group name and the files passed to `copyFilesToTmpDirectory`). -/
structure CorrState where
  runtimes : List (Str × Str)
  warnings : List Str
  staged : List (Str × List Str)
deriving DecidableEq

/-- One iteration of the `for (const update of updates)` loop, source lines
159-171. -/
def correlateStep (groups : List (Str × List Str)) (st : CorrState) (u : UpdateRecord) :
    CorrState :=
  match findAssetGroupName groups u.platform with
  | none => { st with warnings := st.warnings ++ [u.platform] }
  | some key =>
      let newName := newAssetGroupName u.platform u.id (parsePath key).ext
      { st with
          runtimes := aset st.runtimes newName u.runtimeVersion,
          staged := st.staged ++ [(newName, (alookup groups key).getD [])] }

/-- The whole correlation loop, source lines 158-171. -/
def correlate (groups : List (Str × List Str)) (updates : List UpdateRecord) : CorrState :=
  updates.foldl (correlateStep groups) ⟨[], [], []⟩

/-- Destination path of one copied file, source lines 107-111: a sourcemap is
renamed to `<newName>.map` inside the scratch directory, every other file to
`<newName>`. -/
def copyTarget (root newName f : Str) : Str :=
  if extname f = str ".map" then joinPath (tmpDirOf root) (newName ++ str ".map")
  else joinPath (tmpDirOf root) newName

/-- All copies performed by the staged `copyFilesToTmpDirectory` calls
(source line 170 with lines 100-113), as (source, destination) pairs in
execution order. -/
def copyFilesToTmpDirectory (root : Str) (staged : List (Str × List Str)) :
    List (Str × Str) :=
  staged.flatMap (fun s => s.2.map (fun f => (f, copyTarget root s.1 f)))

/-- Filesystem effect of one `fs.cpSync` (line 111): the destination file now
exists (overwritten in place if already present). -/
def insertFile (fs : List Str) (p : Str) : List Str :=
  if p ∈ fs then fs else fs ++ [p]

/-- One invocation of the external upload tool (source lines 179-190): the
release looked up in `runtimesByAssetGroup` (`none` models JS `undefined`),
whether `--debug-id-reference` is passed, and the asset list. -/
structure Upload where
  release : Option Str
  debugId : Bool
  assets : List Str
deriving DecidableEq

/-- Template-literal rendering of the release in the shell command
(line 180): JS interpolates `undefined` as the string "undefined". -/
def releaseFlagValue (u : Upload) : Str :=
  match u.release with
  | none => str "undefined"
  | some r => r

/-- Source lines 176-191: one upload per entry of `groupedTmpAssets`, with
`isHermes` true iff some asset ends in `.hbc` and the release read from
`runtimesByAssetGroup[assetGroupName]`. -/
def uploadsOf (runtimes : List (Str × Str)) (tmpGroups : List (Str × List Str)) :
    List Upload :=
  tmpGroups.map (fun g =>
    ⟨alookup runtimes g.1, g.2.any (fun a => strEndsWith a (str ".hbc")), g.2⟩)

/-- Fatal exits of the script: `process.exit(1)` at lines 132, 140, 147, and
the uncaught `ManifestMissing` throw of `readAndPrintJSONFile` (line 48). -/
inductive Err
  | configProject
  | configAuth
  | configRoot
  | manifestMissing
deriving DecidableEq

/-- JS truthiness of an environment variable / argv entry: absent or the
empty string is falsy. -/
def jsTruthy (o : Option Str) : Bool :=
  match o with
  | none => false
  | some s => !s.isEmpty

/-- Inputs of one run: the environment (`SENTRY_PROJECT`,
`SENTRY_AUTH_TOKEN`), the result of `getSentryPluginPropertiesFromExpoConfig`
(`none` when the plugin lookup fails, otherwise the optional `project`
field), `process.argv[2]`, the filesystem, and the parsed
`eas-update-metadata.json` update list (`none` when the manifest file is
missing). -/
structure Inputs where
  envProject : Option Str
  envAuth : Option Str
  pluginConfig : Option (Option Str)
  rootArg : Option Str
  fs : List Str
  manifest : Option (List UpdateRecord)

/-- Source lines 124-148 in order: resolve the project (exit 1 when the env
var is falsy and the plugin config cannot be fetched; a fetched config with a
missing `project` field passes the check), then require the auth token, then
the root directory argument. -/
def checkConfig (inp : Inputs) : Except Err Str :=
  if jsTruthy inp.envProject = false ∧ inp.pluginConfig = none then .error .configProject
  else if jsTruthy inp.envAuth = false then .error .configAuth
  else
    match inp.rootArg with
    | none => .error .configRoot
    | some root => if root.isEmpty then .error .configRoot else .ok root

/-- Observable outcome of a run: the exit cause (if aborted), whether the
scratch directory was deleted, the warnings, the staged groups, the copies,
`runtimesByAssetGroup`, the second-pass groups and the upload invocations. -/
structure Run where
  exit : Option Err
  deletedTmp : Bool
  warnings : List Str
  staged : List (Str × List Str)
  copies : List (Str × Str)
  runtimes : List (Str × Str)
  tmpGroups : List (Str × List Str)
  uploads : List Upload
deriving DecidableEq

/-- Run outcome of an abort before any filesystem activity. -/
def emptyRun (e : Option Err) : Run :=
  ⟨e, false, [], [], [], [], [], []⟩

/-- Source lines 150-193 once configuration passed: delete the scratch
directory, walk and group the root, read the manifest (aborting when
missing, after the deletion already happened), correlate and stage, then
walk and group the scratch directory and build the upload invocations. -/
def runMain (root : Str) (fs : List Str) (manifest : Option (List UpdateRecord)) : Run :=
  let fs1 := deleteTmpDirectory root fs
  let groups := groupAssets (getAssetPaths root fs1)
  match manifest with
  | none => ⟨some .manifestMissing, true, [], [], [], [], [], []⟩
  | some updates =>
      let st := correlate groups updates
      let copies := copyFilesToTmpDirectory root st.staged
      let fs2 := copies.foldl (fun acc c => insertFile acc c.2) fs1
      let tmpGroups := groupAssets (getAssetPaths (tmpDirOf root) fs2)
      ⟨none, true, st.warnings, st.staged, copies, st.runtimes, tmpGroups,
        uploadsOf st.runtimes tmpGroups⟩

/-- The whole script, source lines 124-193. -/
def runPipeline (inp : Inputs) : Run :=
  match checkConfig inp with
  | .error e => emptyRun (some e)
  | .ok root => runMain root inp.fs inp.manifest

theorem correlate_foldl (groups : List (Str × List Str)) (updates : List UpdateRecord) :
    ∀ st : CorrState,
      (updates.foldl (correlateStep groups) st).warnings =
        st.warnings ++
          (updates.filter
            (fun u => (findAssetGroupName groups u.platform).isNone)).map (fun u => u.platform)
      ∧ (updates.foldl (correlateStep groups) st).staged.length =
        st.staged.length +
          (updates.filter (fun u => (findAssetGroupName groups u.platform).isSome)).length := by
  induction updates with
  | nil => intro st; simp
  | cons u rest ih =>
    intro st
    simp only [List.foldl_cons]
    rcases hf : findAssetGroupName groups u.platform with _ | key
    · have hstep : correlateStep groups st u =
          { st with warnings := st.warnings ++ [u.platform] } := by
        simp [correlateStep, hf]
      rw [hstep]
      obtain ⟨h1, h2⟩ := ih { st with warnings := st.warnings ++ [u.platform] }
      constructor
      · rw [h1]
        simp [List.filter_cons, hf]
      · rw [h2]
        simp [List.filter_cons, hf]
    · have hstep : correlateStep groups st u =
          { st with
              runtimes := aset st.runtimes
                (newAssetGroupName u.platform u.id (parsePath key).ext) u.runtimeVersion,
              staged := st.staged ++
                [(newAssetGroupName u.platform u.id (parsePath key).ext,
                  (alookup groups key).getD [])] } := by
        simp [correlateStep, hf]
      rw [hstep]
      obtain ⟨h1, h2⟩ := ih _
      constructor
      · rw [h1]
        simp [List.filter_cons, hf]
      · rw [h2]
        simp [List.filter_cons, hf]
        omega

theorem length_filter_bool_split {α : Type} (p : α → Bool) (l : List α) :
    (l.filter p).length + (l.filter (fun a => !(p a))).length = l.length := by
  induction l with
  | nil => simp
  | cons a rest ih =>
    by_cases h : p a = true
    · simp only [List.filter_cons, h, if_pos, Bool.not_true, if_neg, List.length_cons]
      simp [h]
      omega
    · have h2 : p a = false := by revert h; cases p a <;> simp
      simp [List.filter_cons, h2]
      omega

theorem length_le_one_of_all_eq {α : Type} (xs : List α) (hnd : xs.Nodup)
    (hall : ∀ a ∈ xs, ∀ b ∈ xs, a = b) : xs.length ≤ 1 := by
  cases xs with
  | nil => simp
  | cons a rest =>
    cases rest with
    | nil => simp
    | cons b rest2 =>
      exfalso
      have hab : a = b := hall a (by simp) b (by simp)
      rw [List.nodup_cons] at hnd
      exact hnd.1 (by rw [hab]; simp)

theorem nodup_all_eq_singleton {α : Type} (xs : List α) (q : α) (hnd : xs.Nodup)
    (hq : q ∈ xs) (hall : ∀ a ∈ xs, a = q) : xs = [q] := by
  cases xs with
  | nil => exact absurd hq (by simp)
  | cons a rest =>
    have ha : a = q := hall a (by simp)
    subst ha
    cases rest with
    | nil => rfl
    | cons b rest2 =>
      exfalso
      have hb : b = a := hall b (by simp)
      rw [List.nodup_cons] at hnd
      exact hnd.1 (by rw [← hb]; simp)

/-- Filesystem of the specification §8 scenario: `app.js`, `app.js.map`,
`index.android.bundle`, `index.android.bundle.map` under root `dist`. -/
def scenAfs : List Str := [str "dist/app.js", str "dist/app.js.map",
  str "dist/index.android.bundle", str "dist/index.android.bundle.map"]

/-- Inputs of the specification §8 scenario: one manifest record
`{id: "u1", platform: "android", runtimeVersion: "1.2.0"}`, configuration
fully resolved from the environment. -/
def scenAinp : Inputs :=
  ⟨some (str "proj"), some (str "tok"), none, some (str "dist"), scenAfs,
   some [⟨str "u1", str "android", str "1.2.0"⟩]⟩

/-- Inputs with two records of distinct ids whose staged names collide: the
ids and platforms embed the `-update-id-` separator. -/
def scenBinp : Inputs :=
  ⟨some (str "proj"), some (str "tok"), none, some (str "dist"),
   [str "dist/x.map", str "dist/x-update-id-y.map"],
   some [⟨str "y-update-id-z", str "x", str "1.0"⟩,
         ⟨str "z", str "x-update-id-y", str "2.0"⟩]⟩

/-- Inputs where no project id is resolvable: the env var is unset and the
fetched plugin config has no `project` field; auth token and root are
present. -/
def scenCinp : Inputs :=
  ⟨none, some (str "tok"), some none, some (str "dist"), [], some []⟩

/-- Inputs with the auth token unset. -/
def scenDinp : Inputs :=
  ⟨none, none, some (some (str "proj")), some (str "dist"), [str "dist/app.js"], some []⟩

/-- Filesystem with a stale file left in the scratch directory by a previous
run. -/
def scenEfs : List Str := [str "dist/.tmp/stale.js", str "dist/app.js"]

/-- Claim C2: grouping assigns each path to exactly one group (the group
keys are distinct, every input path is in the group looked up by its key,
and every group member's key is the group's key); the key is the path with
the extension stripped when the extension is `.map` and the unchanged path
otherwise; a sourcemap `b ++ ".map"` lands in the same group as its
non-sourcemap counterpart `b`; and distinct non-sourcemap paths have
distinct keys, so a (bundle, sourcemap) pair and a (bytecode, sourcemap)
pair in the same directory form two separate groups. -/
theorem groupAssets_partition_and_keys (l : List Str) :
    (akeys (groupAssets l)).Nodup
    ∧ (∀ p ∈ l, ∃ ps, alookup (groupAssets l) (groupKey p) = some ps ∧ p ∈ ps)
    ∧ (∀ k ps, (k, ps) ∈ groupAssets l → ∀ p ∈ ps, groupKey p = k)
    ∧ (∀ p : Str, (parsePath p).ext = str ".map" →
        groupKey p = joinPath (parsePath p).dir (parsePath p).name)
    ∧ (∀ p : Str, isHeadOf (str "//") p = false → (parsePath p).ext ≠ str ".map" →
        groupKey p = p)
    ∧ (∀ b : Str, b ≠ [] → b.getLast? ≠ some '/' → (parsePath b).ext ≠ str ".map" →
        groupKey (b ++ str ".map") = groupKey b)
    ∧ (∀ b1 b2 : Str, isHeadOf (str "//") b1 = false → isHeadOf (str "//") b2 = false →
        (parsePath b1).ext ≠ str ".map" → (parsePath b2).ext ≠ str ".map" →
        b1 ≠ b2 → groupKey b1 ≠ groupKey b2) := by
  refine ⟨nodup_akeys_groupAssets l, ?_, ?_, ?_, ?_, ?_, ?_⟩
  · intro p hp
    obtain ⟨h1, h2⟩ := groupAssets_mem_input l p hp
    exact ⟨keyFilter l (groupKey p), h1, h2⟩
  · intro k ps hm p hp
    obtain ⟨hps, _⟩ := groupAssets_mem_characterization l k ps hm
    subst hps
    exact of_decide_eq_true (List.mem_filter.mp hp).2
  · exact groupKey_of_map_ext
  · exact groupKey_of_not_map_ext
  · exact groupKey_counterpart
  · intro b1 b2 hw1 hw2 he1 he2 hne
    rw [groupKey_of_not_map_ext b1 hw1 he1, groupKey_of_not_map_ext b2 hw2 he2]
    exact hne

/-- Witness for C2 at concrete inputs: the sourcemap of `dist/app.js` shares
its group key, and the path `dist/app.js.map` is found in the group under
its own key. -/
theorem groupAssets_partition_and_keys_witness :
    groupKey (str "dist/app.js" ++ str ".map") = groupKey (str "dist/app.js")
    ∧ ∃ ps, alookup (groupAssets scenAfs) (groupKey (str "dist/app.js.map")) = some ps
        ∧ str "dist/app.js.map" ∈ ps :=
  ⟨(groupAssets_partition_and_keys []).2.2.2.2.2.1 (str "dist/app.js")
      (by decide) (by decide) (by decide),
   (groupAssets_partition_and_keys scenAfs).2.1 (str "dist/app.js.map") (by decide)⟩

/-- Claim C9: over duplicate-free, normalized inputs (as the walker
produces) every group holds at most one sourcemap and at most one
non-sourcemap: a non-sourcemap's key is its own path, and stripping the
`.map` extension is injective on sourcemap paths. -/
theorem groupAssets_atMostOne_perKind (l : List Str) (hnd : l.Nodup)
    (hwf : ∀ p ∈ l, isHeadOf (str "//") p = false) :
    (∀ k ps, (k, ps) ∈ groupAssets l →
      (ps.filter (fun p => decide ((parsePath p).ext = str ".map"))).length ≤ 1 ∧
      (ps.filter (fun p => !decide ((parsePath p).ext = str ".map"))).length ≤ 1)
    ∧ (∀ p ∈ l, (parsePath p).ext ≠ str ".map" → groupKey p = p)
    ∧ (∀ p1 p2, p1 ∈ l → p2 ∈ l → (parsePath p1).ext = str ".map" →
        (parsePath p2).ext = str ".map" → groupKey p1 = groupKey p2 → p1 = p2) := by
  refine ⟨?_, ?_, ?_⟩
  · intro k ps hm
    obtain ⟨hps, _⟩ := groupAssets_mem_characterization l k ps hm
    subst hps
    have hndf : (keyFilter l k).Nodup := hnd.filter _
    have hmemfacts : ∀ p ∈ keyFilter l k, p ∈ l ∧ groupKey p = k := by
      intro p hp
      obtain ⟨hin, hdec⟩ := List.mem_filter.mp hp
      exact ⟨hin, of_decide_eq_true hdec⟩
    constructor
    · apply length_le_one_of_all_eq _ (hndf.filter _)
      intro a ha b hb
      obtain ⟨hainf, hadec⟩ := List.mem_filter.mp ha
      obtain ⟨hbinf, hbdec⟩ := List.mem_filter.mp hb
      obtain ⟨hal, hak⟩ := hmemfacts a hainf
      obtain ⟨hbl, hbk⟩ := hmemfacts b hbinf
      have hae : a = k ++ str ".map" := by
        rw [← hak]
        exact map_eq_groupKey_append a (hwf a hal) (of_decide_eq_true hadec)
      have hbe : b = k ++ str ".map" := by
        rw [← hbk]
        exact map_eq_groupKey_append b (hwf b hbl) (of_decide_eq_true hbdec)
      rw [hae, hbe]
    · apply length_le_one_of_all_eq _ (hndf.filter _)
      intro a ha b hb
      obtain ⟨hainf, hadec⟩ := List.mem_filter.mp ha
      obtain ⟨hbinf, hbdec⟩ := List.mem_filter.mp hb
      obtain ⟨hal, hak⟩ := hmemfacts a hainf
      obtain ⟨hbl, hbk⟩ := hmemfacts b hbinf
      have hane : (parsePath a).ext ≠ str ".map" := by
        intro he; rw [decide_eq_true he] at hadec; exact absurd hadec (by simp)
      have hbne : (parsePath b).ext ≠ str ".map" := by
        intro he; rw [decide_eq_true he] at hbdec; exact absurd hbdec (by simp)
      have hae : a = k := by rw [← hak]; exact (groupKey_of_not_map_ext a (hwf a hal) hane).symm
      have hbe : b = k := by rw [← hbk]; exact (groupKey_of_not_map_ext b (hwf b hbl) hbne).symm
      rw [hae, hbe]
  · intro p hp hext
    exact groupKey_of_not_map_ext p (hwf p hp) hext
  · intro p1 p2 h1 h2 he1 he2 heq
    exact groupKey_map_inj p1 p2 (hwf p1 h1) (hwf p2 h2) he1 he2 heq

/-- Witness for C9 at the §8 scenario file set. -/
theorem groupAssets_atMostOne_perKind_witness :
    ((([str "dist/app.js", str "dist/app.js.map"] : List Str).filter
        (fun p => decide ((parsePath p).ext = str ".map"))).length ≤ 1) ∧
    ((([str "dist/app.js", str "dist/app.js.map"] : List Str).filter
        (fun p => !decide ((parsePath p).ext = str ".map"))).length ≤ 1) :=
  (groupAssets_atMostOne_perKind [str "dist/app.js", str "dist/app.js.map"]
      (by decide) (by decide)).1
    (str "dist/app.js") [str "dist/app.js", str "dist/app.js.map"] (by decide)

/-- Claim C5: for a manifest with N records of which M have a platform
matching some group key, the correlation loop emits one warning (naming the
platform) per unmatched record in order, performs exactly M staging
operations, and processes every record (warnings + staged = N); no record
aborts the loop. -/
theorem correlate_warnings_and_staging_counts (groups : List (Str × List Str))
    (updates : List UpdateRecord) :
    (correlate groups updates).warnings =
      (updates.filter
        (fun u => (findAssetGroupName groups u.platform).isNone)).map (fun u => u.platform)
    ∧ (correlate groups updates).staged.length =
      (updates.filter (fun u => (findAssetGroupName groups u.platform).isSome)).length
    ∧ (correlate groups updates).warnings.length + (correlate groups updates).staged.length =
      updates.length := by
  obtain ⟨h1, h2⟩ := correlate_foldl groups updates ⟨[], [], []⟩
  have hw : (correlate groups updates).warnings =
      (updates.filter
        (fun u => (findAssetGroupName groups u.platform).isNone)).map (fun u => u.platform) := by
    unfold correlate
    rw [h1]
    simp
  have hs : (correlate groups updates).staged.length =
      (updates.filter (fun u => (findAssetGroupName groups u.platform).isSome)).length := by
    unfold correlate
    rw [h2]
    simp
  refine ⟨hw, hs, ?_⟩
  rw [hw, hs, List.length_map]
  have hfe : (fun u : UpdateRecord => (findAssetGroupName groups u.platform).isNone) =
      (fun u : UpdateRecord => !((findAssetGroupName groups u.platform).isSome)) := by
    funext u
    rcases findAssetGroupName groups u.platform with _ | k <;> rfl
  rw [hfe]
  rw [Nat.add_comm]
  exact length_filter_bool_split _ updates

/-- Claim C4: in every run, an upload invocation passes the debug-id flag
iff its asset list contains a file ending in `.hbc`. -/
theorem uploadDebugId_iff_hbc (inp : Inputs) (u : Upload)
    (hu : u ∈ (runPipeline inp).uploads) :
    u.debugId = true ↔ ∃ a ∈ u.assets, strEndsWith a (str ".hbc") = true := by
  have key : ∀ (rt : List (Str × Str)) (gs : List (Str × List Str)) (v : Upload),
      v ∈ uploadsOf rt gs →
        (v.debugId = true ↔ ∃ a ∈ v.assets, strEndsWith a (str ".hbc") = true) := by
    intro rt gs v hv
    obtain ⟨g, hg, rfl⟩ := List.mem_map.mp hv
    simp
  rcases hc : checkConfig inp with e | root
  · simp only [runPipeline, hc, emptyRun] at hu
    exact absurd hu (by simp)
  · simp only [runPipeline, hc] at hu
    rcases hm : inp.manifest with _ | updates
    · simp only [runMain, hm] at hu
      exact absurd hu (by simp)
    · simp only [runMain, hm] at hu
      exact key _ _ u hu

/-- Witness for C4 at the §8 scenario: the single invocation has no `.hbc`
asset and no debug-id flag. -/
theorem uploadDebugId_iff_hbc_witness :
    (Upload.mk none false [str "dist/.tmp/android-update-id-u1.bundle.map"]).debugId = true ↔
      ∃ a ∈ (Upload.mk none false [str "dist/.tmp/android-update-id-u1.bundle.map"]).assets,
        strEndsWith a (str ".hbc") = true :=
  uploadDebugId_iff_hbc scenAinp _ (by decide)

/-- Claim C7: a path below the scratch directory `<root>/.tmp` never occurs
among the first-pass walked files (the deletion runs before the walk) and
never occurs in any first-pass group, whatever was left on disk by a
previous run. -/
theorem staleTmpFiles_never_grouped (root : Str) (fs : List Str) (p : Str)
    (hp : isUnderDir (tmpDirOf root) p = true) :
    p ∉ firstPassFiles root fs
    ∧ ∀ k ps, (k, ps) ∈ firstPassGroups root fs → p ∉ ps := by
  have h1 : p ∉ firstPassFiles root fs := by
    intro hmem
    unfold firstPassFiles getAssetPaths deleteTmpDirectory at hmem
    obtain ⟨hin, _⟩ := List.mem_filter.mp hmem
    obtain ⟨_, hdel⟩ := List.mem_filter.mp hin
    rw [hp] at hdel
    simp at hdel
  refine ⟨h1, ?_⟩
  intro k ps hmem hpmem
  obtain ⟨heq, _⟩ := groupAssets_mem_characterization _ k ps hmem
  rw [heq] at hpmem
  exact h1 (List.mem_filter.mp hpmem).1

/-- Witness for C7: the stale file `dist/.tmp/stale.js` of a crashed
previous run is excluded from the walk and from every group. -/
theorem staleTmpFiles_never_grouped_witness :
    (str "dist/.tmp/stale.js") ∉ firstPassFiles (str "dist") scenEfs
    ∧ ∀ k ps, (k, ps) ∈ firstPassGroups (str "dist") scenEfs →
        (str "dist/.tmp/stale.js") ∉ ps :=
  staleTmpFiles_never_grouped (str "dist") scenEfs (str "dist/.tmp/stale.js") (by decide)

/-- Claim C1 evaluated at the §8 scenario: `runtimesByAssetGroup` is keyed
by the bare new group name, while the second grouping pass keys the staged
group by its full path under `<root>/.tmp`; the runtime lookup therefore
misses and the single upload invocation carries the release rendered as the
string "undefined" instead of the record's runtimeVersion "1.2.0". -/
theorem expoUpload_releaseUndefined_eval :
    (runPipeline scenAinp).runtimes = [(str "android-update-id-u1.bundle", str "1.2.0")]
    ∧ (runPipeline scenAinp).tmpGroups.map Prod.fst =
        [str "dist/.tmp/android-update-id-u1.bundle"]
    ∧ (runPipeline scenAinp).uploads.map Upload.release = [none]
    ∧ (runPipeline scenAinp).uploads.map releaseFlagValue = [str "undefined"]
    ∧ (str "1.2.0") ∉ (runPipeline scenAinp).uploads.map releaseFlagValue
    ∧ (runPipeline scenAinp).exit = none := by decide

/-- Counterexample to claim C3 at the §8 scenario: the single second-pass
group has no entry in `runtimesByAssetGroup`, yet the run does not fail and
the upload tool is invoked for that group. -/
theorem missingRuntime_invokesUpload_cex :
    alookup (runPipeline scenAinp).runtimes (str "dist/.tmp/android-update-id-u1.bundle") = none
    ∧ (runPipeline scenAinp).tmpGroups.map Prod.fst =
        [str "dist/.tmp/android-update-id-u1.bundle"]
    ∧ (runPipeline scenAinp).uploads =
        [⟨none, false, [str "dist/.tmp/android-update-id-u1.bundle.map"]⟩]
    ∧ (runPipeline scenAinp).exit = none := by decide

/-- Claim C3 amended: a second-pass group whose name has no entry in
`runtimesByAssetGroup` does not make the driver fail; the tool is invoked
for it anyway, with the release interpolated as the string "undefined". -/
theorem missingRuntime_uploads_undefined (rt : List (Str × Str))
    (gs : List (Str × List Str)) (k : Str) (as : List Str)
    (hmem : (k, as) ∈ gs) (hnone : alookup rt k = none) :
    (Upload.mk none (as.any (fun a => strEndsWith a (str ".hbc"))) as) ∈ uploadsOf rt gs
    ∧ releaseFlagValue
        (Upload.mk none (as.any (fun a => strEndsWith a (str ".hbc"))) as) =
        str "undefined" := by
  constructor
  · apply List.mem_map.mpr
    exact ⟨(k, as), hmem, by simp [hnone]⟩
  · rfl

/-- Witness for the amended C3 at a concrete group with no runtime entry. -/
theorem missingRuntime_uploads_undefined_witness :
    (Upload.mk none ([str "d/.tmp/g.map"].any (fun a => strEndsWith a (str ".hbc")))
        [str "d/.tmp/g.map"]) ∈ uploadsOf [] [(str "d/.tmp/g", [str "d/.tmp/g.map"])]
    ∧ releaseFlagValue
        (Upload.mk none ([str "d/.tmp/g.map"].any (fun a => strEndsWith a (str ".hbc")))
          [str "d/.tmp/g.map"]) = str "undefined" :=
  missingRuntime_uploads_undefined [] [(str "d/.tmp/g", [str "d/.tmp/g.map"])]
    (str "d/.tmp/g") [str "d/.tmp/g.map"] (by decide) (by decide)

/-- Counterexample to claim C6: two records with distinct update ids (and
distinct platforms embedding the `-update-id-` separator) stage the same
file name, so staged names are not collision-free across distinct ids in
general: both copies land on `dist/.tmp/x-update-id-y-update-id-z.map` and
the second overwrites the runtime entry of the first. -/
theorem newAssetGroupName_collision_cex :
    (runPipeline scenBinp).staged.map Prod.fst =
      [str "x-update-id-y-update-id-z", str "x-update-id-y-update-id-z"]
    ∧ (str "y-update-id-z" : Str) ≠ str "z"
    ∧ (runPipeline scenBinp).copies.map Prod.snd =
        [str "dist/.tmp/x-update-id-y-update-id-z.map",
         str "dist/.tmp/x-update-id-y-update-id-z.map"]
    ∧ (runPipeline scenBinp).runtimes =
        [(str "x-update-id-y-update-id-z", str "2.0")] := by decide

/-- Claim C6 amended: on a match the staged entry is named
`<platform>-update-id-<id><ext>` with `<ext>` the extension of the matched
group key, and for two records with the same platform (hence the same
matched key and extension) distinct update ids give distinct staged
names. -/
theorem newAssetGroupName_formula_and_samePlatform_inj :
    (∀ (gs : List (Str × List Str)) (st : CorrState) (u : UpdateRecord) (k : Str),
      findAssetGroupName gs u.platform = some k →
      (correlateStep gs st u).staged =
        st.staged ++ [(newAssetGroupName u.platform u.id (parsePath k).ext,
          (alookup gs k).getD [])])
    ∧ (∀ (gs : List (Str × List Str)) (u1 u2 : UpdateRecord) (k1 k2 : Str),
        u1.platform = u2.platform → u1.id ≠ u2.id →
        findAssetGroupName gs u1.platform = some k1 →
        findAssetGroupName gs u2.platform = some k2 →
        k1 = k2 ∧
          newAssetGroupName u1.platform u1.id (parsePath k1).ext ≠
            newAssetGroupName u2.platform u2.id (parsePath k2).ext) := by
  constructor
  · intro gs st u k hf
    simp [correlateStep, hf]
  · intro gs u1 u2 k1 k2 hp hid h1 h2
    have hk : k1 = k2 := by
      rw [hp] at h1
      rw [h1] at h2
      exact Option.some.inj h2
    subst hk
    refine ⟨rfl, ?_⟩
    rw [hp]
    unfold newAssetGroupName
    intro he
    apply hid
    have h3 := List.append_cancel_right he
    exact List.append_cancel_left h3

/-- Witness for the amended C6: two records for platform `android` with ids
`u1` and `u2`, both matching the key `dist/app.android.js`, stage distinct
names. -/
theorem newAssetGroupName_formula_and_samePlatform_inj_witness :
    (str "dist/app.android.js" : Str) = str "dist/app.android.js"
    ∧ newAssetGroupName (str "android") (str "u1")
        (parsePath (str "dist/app.android.js")).ext ≠
      newAssetGroupName (str "android") (str "u2")
        (parsePath (str "dist/app.android.js")).ext :=
  (newAssetGroupName_formula_and_samePlatform_inj).2
    (groupAssets [str "dist/app.android.js"])
    ⟨str "u1", str "android", str "1.0"⟩ ⟨str "u2", str "android", str "1.0"⟩
    (str "dist/app.android.js") (str "dist/app.android.js")
    rfl (by decide) (by decide) (by decide)

/-- Counterexample to claim C8: with the project env var unset and a fetched
plugin config that lacks a `project` field, no project identifier is
resolvable, yet the process does not exit: the run proceeds and deletes the
scratch directory (a filesystem mutation). -/
theorem projectFieldMissing_noAbort_cex :
    jsTruthy scenCinp.envProject = false
    ∧ scenCinp.pluginConfig = some none
    ∧ (runPipeline scenCinp).exit = none
    ∧ (runPipeline scenCinp).deletedTmp = true := by decide

/-- Claim C8 amended: the process exits non-zero before any filesystem
mutation (no scratch deletion, no copy, no upload) when the auth token is
falsy, or the project env var is falsy and the plugin config cannot be
fetched at all, or the root argument is falsy; a fetched plugin config
without a `project` field does not abort the run. -/
theorem configError_exits_before_mutation (inp : Inputs)
    (h : jsTruthy inp.envAuth = false
      ∨ (jsTruthy inp.envProject = false ∧ inp.pluginConfig = none)
      ∨ jsTruthy inp.rootArg = false) :
    (runPipeline inp).exit.isSome = true
    ∧ (runPipeline inp).deletedTmp = false
    ∧ (runPipeline inp).copies = []
    ∧ (runPipeline inp).uploads = [] := by
  have hcc : ∃ e, checkConfig inp = .error e := by
    unfold checkConfig
    by_cases h1 : jsTruthy inp.envProject = false ∧ inp.pluginConfig = none
    · exact ⟨.configProject, by rw [if_pos h1]⟩
    · rw [if_neg h1]
      by_cases h2 : jsTruthy inp.envAuth = false
      · exact ⟨.configAuth, by rw [if_pos h2]⟩
      · rw [if_neg h2]
        have h3 : jsTruthy inp.rootArg = false := by
          rcases h with ha | hp | hr
          · exact absurd ha h2
          · exact absurd hp h1
          · exact hr
        rcases hro : inp.rootArg with _ | root
        · exact ⟨.configRoot, rfl⟩
        · have hre : root.isEmpty = true := by
            rw [hro] at h3
            simpa [jsTruthy] using h3
          exact ⟨.configRoot, by simp only [hre, if_pos]⟩
  obtain ⟨e, he⟩ := hcc
  simp [runPipeline, he, emptyRun]

/-- Witness for the amended C8: with the auth token unset the run exits
before mutating anything. -/
theorem configError_exits_before_mutation_witness :
    (runPipeline scenDinp).exit.isSome = true
    ∧ (runPipeline scenDinp).deletedTmp = false
    ∧ (runPipeline scenDinp).copies = []
    ∧ (runPipeline scenDinp).uploads = [] :=
  configError_exits_before_mutation scenDinp (Or.inl (by decide))

/-- Claim C10: a sourcemap whose stripped key names no other input path
forms a group containing only itself, and in the §8 scenario (where
`index.android.bundle` is not classified as an asset) the record for
platform `android` matches that lone-sourcemap group: only the sourcemap is
staged, and the upload tool is invoked for a group holding no bundle or
bytecode file, without the debug-id flag. -/
theorem loneSourcemap_grouped_and_uploaded :
    (∀ (l : List Str) (q : Str), l.Nodup → (∀ p ∈ l, isHeadOf (str "//") p = false) →
      q ∈ l → (parsePath q).ext = str ".map" → groupKey q ∉ l →
      alookup (groupAssets l) (groupKey q) = some [q])
    ∧ ((runPipeline scenAinp).staged =
        [(str "android-update-id-u1.bundle", [str "dist/index.android.bundle.map"])]
      ∧ (runPipeline scenAinp).uploads =
          [⟨none, false, [str "dist/.tmp/android-update-id-u1.bundle.map"]⟩]
      ∧ ∀ a ∈ [str "dist/.tmp/android-update-id-u1.bundle.map"],
          strEndsWith a (str ".hbc") = false ∧ strEndsWith a (str ".js") = false) := by
  constructor
  · intro l q hnd hwf hq hext hnk
    rw [alookup_groupAssets]
    have hall : ∀ a ∈ keyFilter l (groupKey q), a = q := by
      intro a ha
      obtain ⟨hal, hadec⟩ := List.mem_filter.mp ha
      have hak : groupKey a = groupKey q := of_decide_eq_true hadec
      by_cases hae : (parsePath a).ext = str ".map"
      · exact groupKey_map_inj a q (hwf a hal) (hwf q hq) hae hext hak
      · exfalso
        apply hnk
        have hga : groupKey a = a := groupKey_of_not_map_ext a (hwf a hal) hae
        rw [← hak, hga]
        exact hal
    have hqin : q ∈ keyFilter l (groupKey q) := by
      simp [keyFilter, List.mem_filter, hq]
    have hsing : keyFilter l (groupKey q) = [q] :=
      nodup_all_eq_singleton _ q (hnd.filter _) hqin hall
    rw [hsing]
    simp
  · exact ⟨by decide, by decide, by decide⟩

/-- Witness for C10: the lone sourcemap `dist/index.android.bundle.map`
(whose counterpart `dist/index.android.bundle` is not an asset and hence not
walked) is the only member of its group. -/
theorem loneSourcemap_grouped_and_uploaded_witness :
    alookup
      (groupAssets [str "dist/app.js", str "dist/app.js.map",
        str "dist/index.android.bundle.map"])
      (groupKey (str "dist/index.android.bundle.map")) =
      some [str "dist/index.android.bundle.map"] :=
  (loneSourcemap_grouped_and_uploaded).1
    [str "dist/app.js", str "dist/app.js.map", str "dist/index.android.bundle.map"]
    (str "dist/index.android.bundle.map")
    (by decide) (by decide) (by decide) (by decide) (by decide)
